import Mathlib

/-!
Verification of the interop and native-contract dispatch core of neo-go
(package `interop`, file modelled from `src/unnamed/part_000`).

The Go code is shallowly embedded as executable Lean definitions:

* Go slices become `List`, Go `uint32`/`int` become `Nat`/`Int` with explicit
  `% 2^32` where wraparound matters.
* The `*manifest.Method` pointers held by method descriptors are modelled by an
  explicit store (`List ManifestMethod`) with `mdRef` indices; allocation is an
  append, a pointer write is an update of the addressed cell.  This makes the
  clone-before-write discipline of `buildHFSpecificMD` observable.
* Go string comparison (`<`, `>=`, `strings.Compare`) is byte-wise
  lexicographic; it is embedded as the executable code-point-wise comparison
  `strLt` (identical on the ASCII names used by native contracts).
* Collaborator packages that are not part of the given sources
  (`config.Hardfork.Cmp`, `callflag`, `emit`, `opcode`, `vm.AddGas`,
  `state.CreateNativeContractHash`) are modelled from the specification; each
  such definition carries a doc comment starting with `Modelled from the spec:`.
-/

/-! ## String ordering (Go byte-wise `<` on strings) -/

/-- Lexicographic strict comparison of character lists by code point; this is
the embedding of Go's built-in string `<` (byte-wise lexicographic, identical
on ASCII data). -/
def charsLt : List Char → List Char → Bool
  | [], [] => false
  | [], _ :: _ => true
  | _ :: _, [] => false
  | a :: as, b :: bs =>
      if a.toNat < b.toNat then true
      else if b.toNat < a.toNat then false
      else charsLt as bs

/-- Go string `a < b`. -/
def strLt (a b : String) : Bool := charsLt a.data b.data

theorem charsLt_irrefl : ∀ l, charsLt l l = false
  | [] => rfl
  | a :: as => by
      simp only [charsLt, Nat.lt_irrefl, if_false]
      exact charsLt_irrefl as

theorem charsLt_trans : ∀ a b c, charsLt a b = true → charsLt b c = true →
    charsLt a c = true
  | [], [], _, hab, _ => by cases hab
  | [], _ :: _, [], _, hbc => by cases hbc
  | [], _ :: _, _ :: _, _, _ => rfl
  | _ :: _, [], _, hab, _ => by cases hab
  | _ :: _, _ :: _, [], _, hbc => by cases hbc
  | x :: xs, y :: ys, z :: zs, hab, hbc => by
      simp only [charsLt] at hab hbc ⊢
      rcases Nat.lt_trichotomy x.toNat y.toNat with hxy | hxy | hxy
      · rcases Nat.lt_trichotomy y.toNat z.toNat with hyz | hyz | hyz
        · rw [if_pos (by omega)]
        · rw [if_pos (by omega)]
        · rw [if_neg (by omega), if_pos (by omega)] at hbc
          cases hbc
      · rcases Nat.lt_trichotomy y.toNat z.toNat with hyz | hyz | hyz
        · rw [if_pos (by omega)]
        · rw [if_neg (by omega), if_neg (by omega)] at hab
          rw [if_neg (by omega), if_neg (by omega)] at hbc
          rw [if_neg (by omega), if_neg (by omega)]
          exact charsLt_trans xs ys zs hab hbc
        · rw [if_neg (by omega), if_pos (by omega)] at hbc
          cases hbc
      · rw [if_neg (by omega), if_pos (by omega)] at hab
        cases hab

theorem charsLt_connex : ∀ a b, charsLt a b = false → charsLt b a = false → a = b
  | [], [], _, _ => rfl
  | [], _ :: _, hab, _ => by cases hab
  | _ :: _, [], _, hba => by cases hba
  | x :: xs, y :: ys, hab, hba => by
      simp only [charsLt] at hab hba
      by_cases hxy : x.toNat < y.toNat <;> by_cases hyx : y.toNat < x.toNat <;>
        simp only [hxy, hyx, if_true, if_false] at hab hba
      · omega
      · cases hab
      · cases hba
      · have htn : x.toNat = y.toNat := by omega
        have hx : x = y := Char.ext (UInt32.ext htn)
        have hxs : xs = ys := charsLt_connex xs ys hab hba
        rw [hx, hxs]

theorem strLt_irrefl (a : String) : strLt a a = false := charsLt_irrefl a.data

theorem strLt_trans {a b c : String} (hab : strLt a b = true) (hbc : strLt b c = true) :
    strLt a c = true := charsLt_trans a.data b.data c.data hab hbc

theorem strLt_asymm {a b : String} (hab : strLt a b = true) : strLt b a = false := by
  by_contra h
  have hba : strLt b a = true := by
    cases hfact : strLt b a
    · exact absurd hfact h
    · rfl
  have : strLt a a = true := strLt_trans hab hba
  rw [strLt_irrefl] at this
  cases this

theorem strLt_connex {a b : String} (hab : strLt a b = false) (hba : strLt b a = false) :
    a = b := by
  have h : a.data = b.data := charsLt_connex a.data b.data hab hba
  cases a; cases b; exact congrArg String.mk h

/-! ## Go `sort.Search` (binary search for the least index satisfying `f`)

`sort.Search(n, f)` from the Go standard library, embedded with explicit fuel
(`n` iterations always suffice because the interval length strictly decreases).
-/

def goSearchAux (f : Nat → Bool) : Nat → Nat → Nat → Nat
  | 0, i, _ => i
  | fuel + 1, i, j =>
      if i < j then
        let h := (i + j) / 2
        if f h then goSearchAux f fuel i h else goSearchAux f fuel (h + 1) j
      else i

/-- Go `sort.Search(n, f)`. -/
def goSearch (n : Nat) (f : Nat → Bool) : Nat := goSearchAux f n 0 n

/-- `f` is monotone on indices below `n` (false then true), the precondition
Go's `sort.Search` documents. -/
def RangeMono (n : Nat) (f : Nat → Bool) : Prop :=
  ∀ i j, i ≤ j → j < n → f i = true → f j = true

theorem goSearchAux_bounds (f : Nat → Bool) :
    ∀ fuel i j, i ≤ j → j - i ≤ fuel →
      i ≤ goSearchAux f fuel i j ∧ goSearchAux f fuel i j ≤ j
  | 0, i, j, hij, hfuel => by
      simp only [goSearchAux]
      omega
  | fuel + 1, i, j, hij, hfuel => by
      simp only [goSearchAux]
      split
      · next hlt =>
        split
        · next =>
          have := goSearchAux_bounds f fuel i ((i + j) / 2) (by omega) (by omega)
          omega
        · next =>
          have := goSearchAux_bounds f fuel ((i + j) / 2 + 1) j (by omega) (by omega)
          omega
      · omega

theorem goSearchAux_hit (f : Nat → Bool) :
    ∀ fuel i j, i ≤ j → j - i ≤ fuel → goSearchAux f fuel i j < j →
      f (goSearchAux f fuel i j) = true
  | 0, i, j, hij, hfuel, hres => by
      simp only [goSearchAux] at hres ⊢
      omega
  | fuel + 1, i, j, hij, hfuel, hres => by
      simp only [goSearchAux] at hres ⊢
      split at hres
      · next hlt =>
        rw [if_pos hlt]
        split at hres
        · next hfh =>
          rw [if_pos hfh]
          have hb := goSearchAux_bounds f fuel i ((i + j) / 2) (by omega) (by omega)
          rcases Nat.lt_or_ge (goSearchAux f fuel i ((i + j) / 2)) ((i + j) / 2) with h | h
          · exact goSearchAux_hit f fuel i ((i + j) / 2) (by omega) (by omega) h
          · have : goSearchAux f fuel i ((i + j) / 2) = (i + j) / 2 := by omega
            rw [this]
            exact hfh
        · next hfh =>
          rw [if_neg hfh]
          exact goSearchAux_hit f fuel ((i + j) / 2 + 1) j (by omega) (by omega) hres
      · omega

theorem goSearchAux_below (f : Nat → Bool) {n : Nat} (M : RangeMono n f) :
    ∀ fuel i j, i ≤ j → j ≤ n → j - i ≤ fuel →
      ∀ k, i ≤ k → k < goSearchAux f fuel i j → f k = false
  | 0, i, j, hij, hjn, hfuel, k, hik, hk => by
      simp only [goSearchAux] at hk
      omega
  | fuel + 1, i, j, hij, hjn, hfuel, k, hik, hk => by
      simp only [goSearchAux] at hk
      split at hk
      · next hlt =>
        split at hk
        · next hfh =>
          exact goSearchAux_below f M fuel i ((i + j) / 2) (by omega) (by omega)
            (by omega) k hik hk
        · next hfh =>
          rcases Nat.lt_or_ge ((i + j) / 2) k with h | h
          · exact goSearchAux_below f M fuel ((i + j) / 2 + 1) j (by omega) hjn
              (by omega) k (by omega) hk
          · cases hfk : f k
            · rfl
            · have hcontra : f ((i + j) / 2) = true := M k ((i + j) / 2) h (by omega) hfk
              exact absurd hcontra hfh
      · omega

theorem goSearch_le (n : Nat) (f : Nat → Bool) : goSearch n f ≤ n :=
  (goSearchAux_bounds f n 0 n (Nat.zero_le n) (by omega)).2

theorem goSearch_hit (n : Nat) (f : Nat → Bool) (h : goSearch n f < n) :
    f (goSearch n f) = true :=
  goSearchAux_hit f n 0 n (Nat.zero_le n) (by omega) h

theorem goSearch_below (n : Nat) (f : Nat → Bool) (M : RangeMono n f) :
    ∀ k, k < goSearch n f → f k = false := fun k hk =>
  goSearchAux_below f M n 0 n (Nat.zero_le n) (Nat.le_refl n) (by omega) k
    (Nat.zero_le k) hk

theorem goSearch_above (n : Nat) (f : Nat → Bool) (M : RangeMono n f)
    {k : Nat} (hk : goSearch n f ≤ k) (hkn : k < n) : f k = true :=
  M (goSearch n f) k hk hkn (goSearch_hit n f (Nat.lt_of_le_of_lt hk hkn))

/-! ## Data model (package `interop`)

`manifest.Method` cells are addressed by `mdRef` indices into an explicit
store, mirroring the `MD *manifest.Method` pointers of the Go code.  Function
values (`Method` handlers) are abstracted as numeric identifiers. -/

/-- `manifest.Parameter`: name and type of one declared parameter. -/
structure ManifestParameter where
  name : String
  typ : Nat
deriving DecidableEq

/-- `manifest.Method`: the ABI entry of one method (name, parameters, return
type, bytecode offset, safe flag). -/
structure ManifestMethod where
  name : String
  parameters : List ManifestParameter
  returnType : Nat
  offset : Nat
  safe : Bool
deriving DecidableEq

instance : Inhabited ManifestMethod := ⟨⟨"", [], 0, 0, false⟩⟩

/-- `manifest.Event`: the ABI entry of one event. -/
structure ManifestEvent where
  name : String
  parameters : List ManifestParameter
deriving DecidableEq

/-- `MethodAndPrice`: generic hardfork-independent native method descriptor.
`fn` abstracts the `Func Method` handler; `mdRef` is the `MD *manifest.Method`
pointer (an index into the owning contract's store). -/
structure MethodAndPrice where
  fn : Nat
  mdRef : Nat
  cpuFee : Int
  storageFee : Int
  syscallOffset : Nat
  requiredFlags : Nat
  activeFrom : Option Nat
deriving DecidableEq

instance : Inhabited MethodAndPrice := ⟨⟨0, 0, 0, 0, 0, 0, none⟩⟩

/-- `HFSpecificMethodAndPrice`: hardfork-specific native method descriptor
(`MethodAndPrice` without `ActiveFrom`; its `mdRef` points at the clone made
during materialisation). -/
structure HFSpecificMethodAndPrice where
  fn : Nat
  mdRef : Nat
  cpuFee : Int
  storageFee : Int
  syscallOffset : Nat
  requiredFlags : Nat
deriving DecidableEq

instance : Inhabited HFSpecificMethodAndPrice := ⟨⟨0, 0, 0, 0, 0, 0⟩⟩

/-- `Event`: generic native event descriptor (`HFSpecificEvent` plus
`ActiveFrom`).  Event ABI entries are never mutated, so they are held by
value. -/
structure Event where
  md : ManifestEvent
  activeFrom : Option Nat
deriving DecidableEq

/-- `HFSpecificEvent`: hardfork-specific native event descriptor. -/
structure HFSpecificEvent where
  md : ManifestEvent
deriving DecidableEq

/-- `ContractMD`: generic hardfork-independent native contract descriptor.
`store` is the heap of `manifest.Method` cells addressed by the `mdRef`
fields (the `mdCache`, lock and manifest-finaliser callback are omitted:
claims under verification do not involve them). -/
structure ContractMD where
  id : Int
  hash : String
  name : String
  methods : List MethodAndPrice
  events : List Event
  activeHFs : List Nat
  store : List ManifestMethod
deriving DecidableEq

/-- `nef.File` envelope of the synthetic script (checksum computation is part
of the external `nef` package and is out of scope). -/
structure NEFFile where
  magic : Nat
  compiler : String
  tokens : List Nat
  script : List Nat
deriving DecidableEq

/-- Contract manifest: name plus the ABI method/event tables
(`manifest.DefaultManifest` defaults that the claims do not touch are
omitted). -/
structure Manifest where
  name : String
  abiMethods : List ManifestMethod
  abiEvents : List ManifestEvent
deriving DecidableEq

/-- `HFSpecificContractMD`: materialisation of a `ContractMD` at a hardfork
key (`state.ContractBase` fields are inlined). -/
structure HFSpecificContractMD where
  id : Int
  hash : String
  nef : NEFFile
  manifest : Manifest
  methods : List HFSpecificMethodAndPrice
  events : List HFSpecificEvent
deriving DecidableEq

/-! ## Modelled collaborators (not part of the given sources) -/

/-- Modelled from the spec: `config.Hardfork` values are identified with
naturals; older hardforks are smaller and `Cmp` is the standard three-way
comparison (−1 if the receiver is older, 0 if equal, 1 if newer). -/
def hardforkCmp (hf other : Nat) : Int :=
  if hf = other then 0 else if hf < other then -1 else 1

/-- Modelled from the spec: `callflag.ReadStates`. -/
def callflagReadStates : Nat := 1

/-- Modelled from the spec: `callflag.WriteStates`. -/
def callflagWriteStates : Nat := 2

/-- Modelled from the spec: `callflag.AllowCall`. -/
def callflagAllowCall : Nat := 4

/-- Modelled from the spec: `callflag.AllowNotify`. -/
def callflagAllowNotify : Nat := 8

/-- Modelled from the spec: `callflag.States = ReadStates | WriteStates`. -/
def callflagStates : Nat := callflagReadStates ||| callflagWriteStates

/-- Modelled from the spec: `callflag.ReadOnly = ReadStates | AllowCall`. -/
def callflagReadOnly : Nat := callflagReadStates ||| callflagAllowCall

/-- Modelled from the spec: `callflag.All = States | AllowCall | AllowNotify`. -/
def callflagAll : Nat := callflagStates ||| callflagAllowCall ||| callflagAllowNotify

/-- Modelled from the spec: `cf.Has(flags)` holds iff every required bit is
present (`cf & flags == flags`). -/
def callflagHas (cf flags : Nat) : Bool := cf &&& flags == flags

/-- Modelled from the spec: `state.CreateNativeContractHash` derives a
deterministic 20-byte hash from the contract name (ripemd160 over sha256,
out of scope); it is represented abstractly and injectively by the name
itself. -/
def CreateNativeContractHash (name : String) : String := name

/-- Modelled from the spec: NeoVM `opcode.RET`. -/
def opRET : Nat := 0x40

/-- Modelled from the spec: NeoVM `opcode.SYSCALL`. -/
def opSYSCALL : Nat := 0x41

/-- Modelled from the spec: `emit.Int(w, 0)` encodes the integer 0 as the
two-byte instruction `PUSHINT8 0x00` (opcode byte `0x00`, operand `0x00`). -/
def pushInt0Bytes : List Nat := [0x00, 0x00]

/-- Modelled from the spec: the 4-byte interop identifier of
`System.Contract.CallNative` (first four bytes of the sha256 of the name; the
hash computation is out of scope, so the value is an opaque constant). -/
def systemContractCallNativeID : List Nat := [0x52, 0x7d, 0x5b, 0x62]

/-- The five bytes `emit.Syscall(w, interopnames.SystemContractCallNative)`
appends: the `SYSCALL` opcode followed by the 4-byte interop id. -/
def syscallCallNativeBytes : List Nat := opSYSCALL :: systemContractCallNativeID

/-- Modelled from the spec: `nef.Magic`. -/
def nefMagic : Nat := 0x3346454E

/-! ## Registration (`NewContractMD`, `AddMethod`, `AddEvent`) -/

/-- `NewContractMD`: fresh descriptor with the given name and id (the optional
manifest-finaliser callback is omitted). -/
def NewContractMD (name : String) (id : Int) : ContractMD :=
  { id := id
    hash := CreateNativeContractHash name
    name := name
    methods := []
    events := []
    activeHFs := []
    store := [] }

/-- The `Safe` flag set by `AddMethod`:
`md.RequiredFlags&(callflag.All^callflag.ReadOnly) == 0`. -/
def addSafe (md : MethodAndPrice) (desc : ManifestMethod) : ManifestMethod :=
  { desc with safe := md.requiredFlags &&& (callflagAll ^^^ callflagReadOnly) == 0 }

/-- The `sort.Search` predicate of `AddMethod`: for names differing from the
new descriptor's, `md.Name >= desc.Name`; for the same name,
`len(md.Parameters) > len(desc.Parameters)`. -/
def addPred (c : ContractMD) (desc : ManifestMethod) (i : Nat) : Bool :=
  let mdi := c.store.getD (c.methods.getD i default).mdRef default
  if mdi.name = desc.name then decide (desc.parameters.length < mdi.parameters.length)
  else !(strLt mdi.name desc.name)

/-- The insertion position computed by `AddMethod`. -/
def addIndex (c : ContractMD) (desc : ManifestMethod) : Nat :=
  goSearch c.methods.length (addPred c desc)

/-- `ContractMD.AddMethod`: attaches `desc` to `md` (allocating it in the
store and setting its `Safe` flag), inserts the method at the position found
by `sort.Search`, and records the activation hardfork. -/
def AddMethod (c : ContractMD) (md : MethodAndPrice) (desc : ManifestMethod) :
    ContractMD :=
  let desc' := addSafe md desc
  let md' : MethodAndPrice := { md with mdRef := c.store.length }
  let index := addIndex c desc'
  { c with
    store := c.store ++ [desc']
    methods := c.methods.take index ++ md' :: c.methods.drop index
    activeHFs :=
      match md.activeFrom with
      | some hf => if hf ∈ c.activeHFs then c.activeHFs else c.activeHFs ++ [hf]
      | none => c.activeHFs }

/-- `ContractMD.AddEvent`: appends the event and records its activation
hardfork. -/
def AddEvent (c : ContractMD) (md : Event) : ContractMD :=
  { c with
    events := c.events ++ [md]
    activeHFs :=
      match md.activeFrom with
      | some hf => if hf ∈ c.activeHFs then c.activeHFs else c.activeHFs ++ [hf]
      | none => c.activeHFs }

/-! ## Hardfork-specific materialisation (`buildHFSpecificMD`) -/

/-- The filtering condition of `buildHFSpecificMD`, exactly as written in the
source: a member survives iff
`ActiveFrom == nil || (hf != nil && (*ActiveFrom).Cmp(*hf) >= 0)`. -/
def activeIn (activeFrom : Option Nat) (hf : Option Nat) : Bool :=
  match activeFrom with
  | none => true
  | some af =>
      match hf with
      | none => false
      | some h => decide (0 ≤ hardforkCmp af h)

/-- Intermediate state of the materialisation loop: script built so far, ABI
table, hardfork-specific method table, and the `manifest.Method` heap. -/
structure BuildSt where
  script : List Nat
  abiMethods : List ManifestMethod
  methods : List HFSpecificMethodAndPrice
  store : List ManifestMethod
deriving DecidableEq

/-- One iteration of the method loop of `buildHFSpecificMD`: filter by
hardfork, clone the ABI entry (`md := *m.MD; m.MD = &md`), set the clone's
offset to the current script length, emit `PUSHINT8 0`, record the syscall
offset, emit `SYSCALL System.Contract.CallNative` and `RET`, and append to
the ABI and method tables. -/
def buildStep (hf : Option Nat) (st : BuildSt) (m : MethodAndPrice) : BuildSt :=
  if activeIn m.activeFrom hf then
    let md := { st.store.getD m.mdRef default with offset := st.script.length }
    let newRef := st.store.length
    let script1 := st.script ++ pushInt0Bytes
    let syscallOffset := script1.length
    { script := script1 ++ syscallCallNativeBytes ++ [opRET]
      abiMethods := st.abiMethods ++ [md]
      methods := st.methods ++
        [{ fn := m.fn, mdRef := newRef, cpuFee := m.cpuFee, storageFee := m.storageFee,
           syscallOffset := syscallOffset, requiredFlags := m.requiredFlags }]
      store := st.store ++ [md] }
  else st

/-- One iteration of the event loop of `buildHFSpecificMD`: filter by the same
rule and append the ABI entry and the hardfork-specific descriptor. -/
def buildEventsStep (hf : Option Nat) (st : List ManifestEvent × List HFSpecificEvent)
    (e : Event) : List ManifestEvent × List HFSpecificEvent :=
  if activeIn e.activeFrom hf then (st.1 ++ [e.md], st.2 ++ [⟨e.md⟩]) else st

/-- `ContractMD.buildHFSpecificMD`: materialise the contract at hardfork key
`hf`.  Returns the hardfork-specific descriptor together with the final
`manifest.Method` heap (the input heap plus the clones allocated by the
loop); the NEF checksum and the cache write are omitted. -/
def buildHFSpecificMD (c : ContractMD) (hf : Option Nat) :
    HFSpecificContractMD × List ManifestMethod :=
  let st := c.methods.foldl (buildStep hf)
    { script := [], abiMethods := [], methods := [], store := c.store }
  let ev := c.events.foldl (buildEventsStep hf) ([], [])
  ({ id := c.id
     hash := c.hash
     nef := { magic := nefMagic, compiler := "neo-core-v3.0", tokens := [],
              script := st.script }
     manifest := { name := c.name, abiMethods := st.abiMethods, abiEvents := ev.1 }
     methods := st.methods
     events := ev.2 }, st.store)

/-! ## Method lookup (`GetMethod`) -/

/-- The `sort.Search` predicate of `GetMethod`: three-way `strings.Compare`
on the name, then `paramCount <= len(md.MD.Parameters)` on equal names. -/
def getMethodPred (store : List ManifestMethod) (ms : List HFSpecificMethodAndPrice)
    (name : String) (paramCount : Int) (i : Nat) : Bool :=
  let mdi := store.getD (ms.getD i default).mdRef default
  if strLt name mdi.name then true
  else if strLt mdi.name name then false
  else decide (paramCount ≤ (mdi.parameters.length : Int))

/-- The final bounds-and-arity check of `GetMethod` at the index found by
`sort.Search`. -/
def getMethodAt (store : List ManifestMethod) (ms : List HFSpecificMethodAndPrice)
    (name : String) (paramCount : Int) (index : Nat) :
    Option HFSpecificMethodAndPrice :=
  if index < ms.length then
    if (store.getD (ms.getD index default).mdRef default).name = name ∧
        (paramCount = -1 ∨
          (((store.getD (ms.getD index default).mdRef default).parameters.length : Int) =
            paramCount))
    then some (ms.getD index default) else none
  else none

/-- `HFSpecificContractMD.GetMethod`: binary search by name
(`strings.Compare`), then arity check; `paramCount == -1` accepts any arity.
`store` is the heap holding the `manifest.Method` cells of `c.methods`. -/
def GetMethod (store : List ManifestMethod) (c : HFSpecificContractMD)
    (name : String) (paramCount : Int) : Option HFSpecificMethodAndPrice :=
  getMethodAt store c.methods name paramCount
    (goSearch c.methods.length (getMethodPred store c.methods name paramCount))

/-! ## Syscall table and dispatch (`GetFunction`, `SyscallHandler`) -/

/-- `Function`: one syscall registration (handler abstracted as `fn`). -/
structure Function where
  id : Nat
  name : String
  fn : Nat
  paramCount : Nat
  price : Int
  requiredFlags : Nat
deriving DecidableEq

instance : Inhabited Function := ⟨⟨0, "", 0, 0, 0, 0⟩⟩

/-- The bounds-and-id check of `GetFunction` at the index found by
`sort.Search`. -/
def getFunctionAt (fs : List Function) (id : Nat) (n : Nat) : Option Function :=
  if n < fs.length ∧ (fs.getD n default).id = id then some (fs.getD n default)
  else none

/-- `Context.GetFunction`: binary search of the sorted function table by id. -/
def GetFunction (fs : List Function) (id : Nat) : Option Function :=
  getFunctionAt fs id
    (goSearch fs.length (fun i => decide (id ≤ (fs.getD i default).id)))

/-- VM gas accounting state: consumed amount and limit (negative limit means
unbounded, as set by `initVM`). -/
structure VMGas where
  gasConsumed : Int
  gasLimit : Int
deriving DecidableEq

/-- Modelled from the spec: `vm.AddGas` adds the price to the consumed amount
and reports whether the budget still suffices (charging happens before the
check so that out-of-gas is observable uniformly). -/
def AddGas (v : VMGas) (gas : Int) : Bool × VMGas :=
  let v' : VMGas := { v with gasConsumed := v.gasConsumed + gas }
  (decide (v'.gasLimit < 0) || decide (v'.gasConsumed ≤ v'.gasLimit), v')

/-- The state of the invocation context that syscall dispatch reads and
writes: the sorted function table, the base execution fee, the current
frame's call flags (`VM.Context().GetCallFlags()`, modelled from the spec)
and the VM gas accounts. -/
structure SyscallState where
  functions : List Function
  baseExecFee : Int
  callFlags : Nat
  gas : VMGas
deriving DecidableEq

/-- Failure modes of syscall dispatch; `missingCallFlags` reports both
bitsets as the Go error message does, `handlerError` wraps an error
propagated verbatim from the handler. -/
inductive SyscallError where
  | syscallNotFound
  | missingCallFlags (cf flags : Nat)
  | insufficientGas
  | handlerError (e : Nat)
deriving DecidableEq

/-- `Context.SyscallHandler`: look the syscall up, check call flags, charge
gas, then run the handler.  `handler` interprets the abstract handler ids
(`f.Func(ic)`, returning an optional error and the mutated context state).
The final component instruments how many times the handler ran. -/
def SyscallHandler (handler : Nat → SyscallState → Option Nat × SyscallState)
    (ic : SyscallState) (id : Nat) : Option SyscallError × SyscallState × Nat :=
  match GetFunction ic.functions id with
  | none => (some .syscallNotFound, ic, 0)
  | some f =>
      if !(callflagHas ic.callFlags f.requiredFlags) then
        (some (.missingCallFlags ic.callFlags f.requiredFlags), ic, 0)
      else
        let r := AddGas ic.gas (f.price * ic.baseExecFee)
        let ic1 : SyscallState := { ic with gas := r.2 }
        if !r.1 then (some .insufficientGas, ic1, 0)
        else
          let hres := handler f.fn ic1
          (hres.1.map SyscallError.handlerError, hres.2, 1)

/-! ## Ledger view adapter (`BlockHeight`, `GetBlock`, hardfork tests) -/

/-- The ledger-relevant part of `block.Block`: index (a `uint32`), an abstract
hash and the nonce. -/
structure Block where
  index : Nat
  hash : Nat
  nonce : Nat
deriving DecidableEq

/-- The `Ledger` interface required from the blockchain: stored tip height,
current hash, block lookup by hash, header hash by index. -/
structure Ledger where
  blockHeight : Nat
  currentBlockHash : Nat
  getBlock : Nat → Option Block
  getHeaderHash : Nat → Nat

/-- The ledger-view part of the invocation `Context`: chain handle, optional
persisting block, and the hardfork activation-height map (keyed by the
hardfork identifier, standing in for `hf.String()`). -/
structure InteropCtx where
  chain : Ledger
  block : Option Block
  hardforks : List (Nat × Nat)

/-- 2^32, the modulus of Go `uint32` arithmetic. -/
def u32size : Nat := 4294967296

/-- Go map lookup `ic.Hardforks[hf.String()]`. -/
def hardforkLookup (m : List (Nat × Nat)) (hf : Nat) : Option Nat :=
  (m.find? (fun p => p.1 == hf)).map (fun p => p.2)

/-- `Context.BlockHeight`: `Block.Index - 1` in `uint32` arithmetic when a
persisting block is attached, otherwise the chain's stored height. -/
def BlockHeight (ic : InteropCtx) : Nat :=
  match ic.block with
  | some b => (b.index + (u32size - 1)) % u32size
  | none => ic.chain.blockHeight

/-- Failure modes of `Context.GetBlock`: an error propagated from the ledger,
or `storage.ErrKeyNotFound` for a block above the visible height. -/
inductive GetBlockErr where
  | ledger
  | keyNotFound
deriving DecidableEq

/-- `Context.GetBlock`: fetch from the chain, then hide blocks above the
current context height (the persisting block is not reachable). -/
def GetBlock (ic : InteropCtx) (hash : Nat) : Except GetBlockErr Block :=
  match ic.chain.getBlock hash with
  | none => .error .ledger
  | some b => if b.index > BlockHeight ic then .error .keyNotFound else .ok b

/-- `Context.IsHardforkEnabled`: activation height known and
`BlockHeight() + 1 >= height` (in `uint32` arithmetic); unknown hardforks are
disabled. -/
def IsHardforkEnabled (ic : InteropCtx) (hf : Nat) : Bool :=
  match hardforkLookup ic.hardforks hf with
  | some height => decide ((BlockHeight ic + 1) % u32size ≥ height)
  | none => false

/-- `Context.IsHardforkActivation`: `ok && ic.Block.Index == height`.  The Go
code dereferences `ic.Block` without a nil check once the height is known;
`none` models that nil-pointer fault. -/
def IsHardforkActivation (ic : InteropCtx) (hf : Nat) : Option Bool :=
  match hardforkLookup ic.hardforks hf with
  | none => some false
  | some height =>
      match ic.block with
      | none => none
      | some b => some (b.index == height)

/-! ## Sort keys and the ordering maintained by `AddMethod` -/

/-- Sort key of a method: the (name, parameter count) of its `manifest.Method`
cell read through the store. -/
def mdKey (store : List ManifestMethod) (r : Nat) : String × Nat :=
  ((store.getD r default).name, (store.getD r default).parameters.length)

/-- Key order: ascending name, then ascending parameter count. -/
def nameParamLe (a b : String × Nat) : Bool :=
  strLt a.1 b.1 || (a.1 == b.1 && decide (a.2 ≤ b.2))

/-- Strict key order: ascending name, then ascending parameter count. -/
def nameParamLt (a b : String × Nat) : Bool :=
  strLt a.1 b.1 || (a.1 == b.1 && decide (a.2 < b.2))

theorem nameParamLe_of_lt {a b : String × Nat} (h : nameParamLt a b = true) :
    nameParamLe a b = true := by
  simp only [nameParamLt, Bool.or_eq_true, Bool.and_eq_true, decide_eq_true_eq] at h
  simp only [nameParamLe, Bool.or_eq_true, Bool.and_eq_true, decide_eq_true_eq]
  rcases h with h | ⟨he, hn⟩
  · exact Or.inl h
  · exact Or.inr ⟨he, Nat.le_of_lt hn⟩

theorem nameParamLe_of_not_lt {a b : String × Nat} (h : nameParamLt a b = false) :
    nameParamLe b a = true := by
  simp only [nameParamLt, Bool.or_eq_false_iff, Bool.and_eq_false_iff] at h
  simp only [nameParamLe, Bool.or_eq_true, Bool.and_eq_true, decide_eq_true_eq]
  obtain ⟨h1, h2⟩ := h
  cases hba : strLt b.1 a.1
  · have he : a.1 = b.1 := strLt_connex h1 hba
    refine Or.inr ⟨?_, ?_⟩
    · rw [he]
      exact beq_self_eq_true b.1
    · rcases h2 with h2 | h2
      · rw [he] at h2
        rw [beq_self_eq_true b.1] at h2
        cases h2
      · simp only [decide_eq_false_iff_not] at h2
        omega
  · exact Or.inl rfl

theorem nameParamLt_le_trans {a b c : String × Nat} (h1 : nameParamLt a b = true)
    (h2 : nameParamLe b c = true) : nameParamLt a c = true := by
  simp only [nameParamLt, Bool.or_eq_true, Bool.and_eq_true, decide_eq_true_eq,
    beq_iff_eq] at h1 ⊢
  simp only [nameParamLe, Bool.or_eq_true, Bool.and_eq_true, decide_eq_true_eq,
    beq_iff_eq] at h2
  rcases h1 with h1 | ⟨he1, hn1⟩
  · rcases h2 with h2 | ⟨he2, _⟩
    · exact Or.inl (strLt_trans h1 h2)
    · rw [he2] at h1
      exact Or.inl h1
  · rcases h2 with h2 | ⟨he2, hn2⟩
    · rw [he1]
      exact Or.inl h2
    · exact Or.inr ⟨he1.trans he2, by omega⟩

theorem strLt_flip {a b : String} (hne : a ≠ b) : (!strLt a b) = strLt b a := by
  cases hab : strLt a b
  · cases hba : strLt b a
    · exact absurd (strLt_connex hab hba) hne
    · rfl
  · rw [strLt_asymm hab]
    rfl

/-! ## List access helper lemmas -/

theorem getD_append_lt {α : Type} [Inhabited α] (l : List α) (x : α) {i : Nat}
    (h : i < l.length) : (l ++ [x]).getD i default = l.getD i default := by
  simp [List.getD, List.getElem?_append_left h]

theorem getD_append_len {α : Type} [Inhabited α] (l : List α) (x : α) :
    (l ++ [x]).getD l.length default = x := by
  simp [List.getD]

theorem getD_eq_getElem {α : Type} [Inhabited α] (l : List α) {i : Nat}
    (h : i < l.length) : l.getD i default = l[i] := by
  simp [List.getD, List.getElem?_eq_getElem h]

theorem mdKey_append {store : List ManifestMethod} {d : ManifestMethod} {r : Nat}
    (h : r < store.length) : mdKey (store ++ [d]) r = mdKey store r := by
  unfold mdKey
  rw [getD_append_lt store d h]

theorem mdKey_append_len (store : List ManifestMethod) (d : ManifestMethod) :
    mdKey (store ++ [d]) store.length = (d.name, d.parameters.length) := by
  unfold mdKey
  rw [getD_append_len store d]

/-! ## Sortedness invariant of the method tables -/

/-- The invariant `AddMethod` maintains: every `mdRef` is a valid store index
and the methods are pairwise ordered by ascending name, then ascending
parameter count. -/
def ContractSorted (c : ContractMD) : Prop :=
  (∀ m ∈ c.methods, m.mdRef < c.store.length) ∧
  c.methods.Pairwise
    (fun a b => nameParamLe (mdKey c.store a.mdRef) (mdKey c.store b.mdRef) = true)

/-- The same invariant for a hardfork-specific method table over its store. -/
def HFSorted (store : List ManifestMethod) (ms : List HFSpecificMethodAndPrice) :
    Prop :=
  (∀ m ∈ ms, m.mdRef < store.length) ∧
  ms.Pairwise
    (fun a b => nameParamLe (mdKey store a.mdRef) (mdKey store b.mdRef) = true)

theorem addPred_eq_lt (c : ContractMD) (desc : ManifestMethod) {i : Nat}
    (hi : i < c.methods.length) :
    addPred c desc i =
      nameParamLt (desc.name, desc.parameters.length) (mdKey c.store c.methods[i].mdRef) := by
  unfold addPred
  rw [getD_eq_getElem c.methods hi]
  set mdi := c.store.getD c.methods[i].mdRef default with hmdi
  simp only [nameParamLt, mdKey, ← hmdi]
  by_cases heq : mdi.name = desc.name
  · rw [if_pos heq, heq, strLt_irrefl, beq_self_eq_true]
    simp
  · rw [if_neg heq]
    have hne : desc.name ≠ mdi.name := fun h => heq h.symm
    rw [strLt_flip heq]
    have hbeq : (desc.name == mdi.name) = false := beq_eq_false_iff_ne.mpr hne
    rw [hbeq]
    simp

theorem addPred_mono (c : ContractMD) (desc : ManifestMethod)
    (hpair : c.methods.Pairwise
      (fun a b => nameParamLe (mdKey c.store a.mdRef) (mdKey c.store b.mdRef) = true)) :
    RangeMono c.methods.length (addPred c desc) := by
  intro i j hij hj hfi
  rcases Nat.eq_or_lt_of_le hij with heq | hlt
  · rwa [← heq]
  · have hi : i < c.methods.length := by omega
    rw [addPred_eq_lt c desc hi] at hfi
    rw [addPred_eq_lt c desc hj]
    exact nameParamLt_le_trans hfi ((List.pairwise_iff_getElem.mp hpair) i j hi hj hlt)

theorem AddMethod_preserves_sorted (c : ContractMD) (md : MethodAndPrice)
    (desc : ManifestMethod) (h : ContractSorted c) :
    ContractSorted (AddMethod c md desc) := by
  obtain ⟨hrefs, hpair⟩ := h
  have hM : RangeMono c.methods.length (addPred c (addSafe md desc)) :=
    addPred_mono c (addSafe md desc) hpair
  have hmeth : (AddMethod c md desc).methods =
      c.methods.take (addIndex c (addSafe md desc)) ++
        { md with mdRef := c.store.length } ::
          c.methods.drop (addIndex c (addSafe md desc)) := rfl
  have hstore : (AddMethod c md desc).store = c.store ++ [addSafe md desc] := rfl
  have hrle : addIndex c (addSafe md desc) ≤ c.methods.length := goSearch_le _ _
  have hkey_new : mdKey (c.store ++ [addSafe md desc]) c.store.length =
      (desc.name, desc.parameters.length) := by
    rw [mdKey_append_len]
    rfl
  constructor
  · intro m hm
    rw [hmeth] at hm
    rw [hstore, List.length_append, List.length_singleton]
    rcases List.mem_append.mp hm with hmem | hmem
    · have := hrefs m (List.mem_of_mem_take hmem)
      omega
    · rcases List.mem_cons.mp hmem with heq | hmem
      · rw [heq]
        exact Nat.lt_succ_self c.store.length
      · have := hrefs m (List.mem_of_mem_drop hmem)
        omega
  · rw [hmeth, hstore, List.pairwise_append]
    refine ⟨?_, ?_, ?_⟩
    · refine (hpair.sublist (List.take_sublist _ _)).imp_of_mem ?_
      intro a b ha hb hab
      rw [mdKey_append (hrefs a (List.mem_of_mem_take ha)),
        mdKey_append (hrefs b (List.mem_of_mem_take hb))]
      exact hab
    · rw [List.pairwise_cons]
      constructor
      · intro b hb
        obtain ⟨k, hk, hbk⟩ := List.mem_iff_getElem.mp hb
        rw [List.getElem_drop] at hbk
        have hkn : addIndex c (addSafe md desc) + k < c.methods.length := by
          rw [List.length_drop] at hk
          omega
        have hpred : addPred c (addSafe md desc) (addIndex c (addSafe md desc) + k) = true :=
          goSearch_above c.methods.length (addPred c (addSafe md desc)) hM
            (Nat.le_add_right _ _) hkn
        rw [addPred_eq_lt c _ hkn] at hpred
        have hbmem : b ∈ c.methods := by
          rw [← hbk]
          exact List.getElem_mem _
        show nameParamLe (mdKey (c.store ++ [addSafe md desc])
          ({ md with mdRef := c.store.length } : MethodAndPrice).mdRef)
          (mdKey (c.store ++ [addSafe md desc]) b.mdRef) = true
        rw [mdKey_append (hrefs b hbmem)]
        have hmd' : ({ md with mdRef := c.store.length } : MethodAndPrice).mdRef =
            c.store.length := rfl
        rw [hmd', hkey_new, ← hbk]
        exact nameParamLe_of_lt hpred
      · refine (hpair.sublist (List.drop_sublist _ _)).imp_of_mem ?_
        intro a b ha hb hab
        rw [mdKey_append (hrefs a (List.mem_of_mem_drop ha)),
          mdKey_append (hrefs b (List.mem_of_mem_drop hb))]
        exact hab
    · intro a ha b hb
      obtain ⟨k, hk, hak⟩ := List.mem_iff_getElem.mp ha
      rw [List.getElem_take] at hak
      have hkb : k < addIndex c (addSafe md desc) ∧ k < c.methods.length := by
        rw [List.length_take] at hk
        omega
      have hamem : a ∈ c.methods := by
        rw [← hak]
        exact List.getElem_mem _
      rcases List.mem_cons.mp hb with heq | hb2
      · have hpred : addPred c (addSafe md desc) k = false :=
          goSearch_below c.methods.length (addPred c (addSafe md desc)) hM k hkb.1
        rw [addPred_eq_lt c _ hkb.2] at hpred
        rw [heq]
        show nameParamLe (mdKey (c.store ++ [addSafe md desc]) a.mdRef)
          (mdKey (c.store ++ [addSafe md desc])
            ({ md with mdRef := c.store.length } : MethodAndPrice).mdRef) = true
        have hmd' : ({ md with mdRef := c.store.length } : MethodAndPrice).mdRef =
            c.store.length := rfl
        rw [hmd', hkey_new, mdKey_append (hrefs a hamem), ← hak]
        exact nameParamLe_of_not_lt hpred
      · obtain ⟨k2, hk2, hbk2⟩ := List.mem_iff_getElem.mp hb2
        rw [List.getElem_drop] at hbk2
        have hk2n : addIndex c (addSafe md desc) + k2 < c.methods.length := by
          rw [List.length_drop] at hk2
          omega
        have hbmem : b ∈ c.methods := by
          rw [← hbk2]
          exact List.getElem_mem _
        have hcross := (List.pairwise_iff_getElem.mp hpair) k
          (addIndex c (addSafe md desc) + k2) hkb.2 hk2n (by omega)
        rw [mdKey_append (hrefs a hamem), mdKey_append (hrefs b hbmem), ← hak, ← hbk2]
        exact hcross

/-! ## Materialisation invariants -/

/-- The 8 bytes one method contributes to the synthetic script. -/
def stubBytes : List Nat := pushInt0Bytes ++ syscallCallNativeBytes ++ [opRET]

theorem buildStep_active (hf : Option Nat) (st : BuildSt) (m : MethodAndPrice)
    (hact : activeIn m.activeFrom hf = true) :
    buildStep hf st m =
      { script := st.script ++ stubBytes
        abiMethods := st.abiMethods ++
          [{ st.store.getD m.mdRef default with offset := st.script.length }]
        methods := st.methods ++
          [{ fn := m.fn, mdRef := st.store.length, cpuFee := m.cpuFee,
             storageFee := m.storageFee, syscallOffset := st.script.length + 2,
             requiredFlags := m.requiredFlags }]
        store := st.store ++
          [{ st.store.getD m.mdRef default with offset := st.script.length }] } := by
  unfold buildStep
  rw [if_pos hact]
  have h1 : (st.script ++ pushInt0Bytes).length = st.script.length + 2 := by
    simp [pushInt0Bytes]
  simp only [h1, stubBytes, List.append_assoc]

theorem buildStep_skip (hf : Option Nat) (st : BuildSt) (m : MethodAndPrice)
    (hact : activeIn m.activeFrom hf = false) : buildStep hf st m = st := by
  unfold buildStep
  rw [hact]
  simp

/-- Loop invariant of the method loop: script length is 8 bytes per method,
each recorded method has its stub at `syscallOffset - 2`, and its clone's
offset points at the stub. -/
def BuildInv (st : BuildSt) : Prop :=
  st.script.length = 8 * st.methods.length ∧
  ∀ m ∈ st.methods,
    2 ≤ m.syscallOffset ∧ m.syscallOffset + 6 ≤ st.script.length ∧
    (st.script.drop (m.syscallOffset - 2)).take 8 = stubBytes ∧
    m.mdRef < st.store.length ∧
    (st.store.getD m.mdRef default).offset = m.syscallOffset - 2

theorem buildStep_inv (hf : Option Nat) (st : BuildSt) (m : MethodAndPrice)
    (h : BuildInv st) : BuildInv (buildStep hf st m) := by
  obtain ⟨hlen, hms⟩ := h
  cases hact : activeIn m.activeFrom hf
  · rw [buildStep_skip hf st m hact]
    exact ⟨hlen, hms⟩
  · rw [buildStep_active hf st m hact]
    have hstub : stubBytes.length = 8 := rfl
    constructor
    · simp only [List.length_append, hstub, List.length_cons, List.length_nil, hlen]
      omega
    · intro m' hmem
      rcases List.mem_append.mp hmem with hold | hnew
      · obtain ⟨h2, h6, hdrop, href, hoff⟩ := hms m' hold
        refine ⟨h2, ?_, ?_, ?_, ?_⟩
        · simp only [List.length_append, hstub]
          omega
        · rw [List.drop_append_of_le_length (by omega),
            List.take_append_of_le_length (by simp [List.length_drop]; omega)]
          exact hdrop
        · simp only [List.length_append, List.length_cons, List.length_nil]
          omega
        · rw [getD_append_lt st.store _ href]
          exact hoff
      · rw [List.mem_singleton] at hnew
        subst hnew
        refine ⟨Nat.le_add_left 2 st.script.length, ?_, ?_, ?_, ?_⟩
        · simp only [List.length_append, hstub]
          omega
        · have hd : st.script.length + 2 - 2 = st.script.length := by omega
          rw [hd, List.drop_left]
          rfl
        · simp only [List.length_append, List.length_cons, List.length_nil]
          omega
        · rw [getD_append_len]
          rfl

theorem build_inv (hf : Option Nat) (ms : List MethodAndPrice) :
    ∀ st : BuildSt, BuildInv st → BuildInv (ms.foldl (buildStep hf) st) := by
  induction ms with
  | nil => intro st h; exact h
  | cons m rest ih =>
      intro st h
      exact ih (buildStep hf st m) (buildStep_inv hf st m h)

theorem buildStep_store_extend (hf : Option Nat) (st : BuildSt) (m : MethodAndPrice) :
    ∃ ext, (buildStep hf st m).store = st.store ++ ext := by
  cases hact : activeIn m.activeFrom hf
  · rw [buildStep_skip hf st m hact]
    exact ⟨[], (List.append_nil _).symm⟩
  · rw [buildStep_active hf st m hact]
    exact ⟨_, rfl⟩

theorem build_store_extend (hf : Option Nat) (ms : List MethodAndPrice) :
    ∀ st : BuildSt, ∃ ext, (ms.foldl (buildStep hf) st).store = st.store ++ ext := by
  induction ms with
  | nil => intro st; exact ⟨[], (List.append_nil _).symm⟩
  | cons m rest ih =>
      intro st
      obtain ⟨e1, he1⟩ := buildStep_store_extend hf st m
      obtain ⟨e2, he2⟩ := ih (buildStep hf st m)
      refine ⟨e1 ++ e2, ?_⟩
      rw [List.foldl_cons, he2, he1, List.append_assoc]

/-! ## `GetMethod` binary-search correctness -/

theorem nameParamLe_cases {a b : String × Nat} (h : nameParamLe a b = true) :
    strLt a.1 b.1 = true ∨ (a.1 = b.1 ∧ a.2 ≤ b.2) := by
  simp only [nameParamLe, Bool.or_eq_true, Bool.and_eq_true, decide_eq_true_eq,
    beq_iff_eq] at h
  exact h

theorem getMethodPred_eq (store : List ManifestMethod)
    (ms : List HFSpecificMethodAndPrice) (name : String) (paramCount : Int) {i : Nat}
    (hi : i < ms.length) :
    getMethodPred store ms name paramCount i =
      (strLt name (store.getD ms[i].mdRef default).name ||
        ((store.getD ms[i].mdRef default).name == name &&
          decide (paramCount ≤ ((store.getD ms[i].mdRef default).parameters.length : Int)))) := by
  unfold getMethodPred
  rw [getD_eq_getElem ms hi]
  set mdi := store.getD ms[i].mdRef default with hmdi
  by_cases h1 : strLt name mdi.name = true
  · rw [if_pos h1, h1]
    simp
  · have h1f : strLt name mdi.name = false := by
      cases hx : strLt name mdi.name
      · rfl
      · exact absurd hx h1
    rw [if_neg h1, h1f]
    by_cases h2 : strLt mdi.name name = true
    · rw [if_pos h2]
      have hne : mdi.name ≠ name := by
        intro he
        rw [he, strLt_irrefl] at h2
        cases h2
      rw [beq_eq_false_iff_ne.mpr hne]
      simp
    · have h2f : strLt mdi.name name = false := by
        cases hx : strLt mdi.name name
        · rfl
        · exact absurd hx h2
      rw [if_neg h2]
      have he : mdi.name = name := strLt_connex h2f h1f
      rw [he, beq_self_eq_true]
      simp

theorem getMethodPred_mono (store : List ManifestMethod)
    (ms : List HFSpecificMethodAndPrice) (name : String) (paramCount : Int)
    (hpair : ms.Pairwise
      (fun a b => nameParamLe (mdKey store a.mdRef) (mdKey store b.mdRef) = true)) :
    RangeMono ms.length (getMethodPred store ms name paramCount) := by
  intro i j hij hj hfi
  rcases Nat.eq_or_lt_of_le hij with heq | hlt
  · rwa [← heq]
  · have hi : i < ms.length := by omega
    rw [getMethodPred_eq store ms name paramCount hi] at hfi
    rw [getMethodPred_eq store ms name paramCount hj]
    have hle := nameParamLe_cases ((List.pairwise_iff_getElem.mp hpair) i j hi hj hlt)
    simp only [mdKey] at hle
    simp only [Bool.or_eq_true, Bool.and_eq_true, decide_eq_true_eq, beq_iff_eq] at hfi ⊢
    rcases hfi with hfi | ⟨hni, hpi⟩
    · rcases hle with hle | ⟨hne, _⟩
      · exact Or.inl (strLt_trans hfi hle)
      · rw [← hne]
        exact Or.inl hfi
    · rcases hle with hle | ⟨hne, hple⟩
      · rw [hni] at hle
        exact Or.inl hle
      · refine Or.inr ⟨?_, ?_⟩
        · rw [← hne]
          exact hni
        · have hc : ((store.getD ms[i].mdRef default).parameters.length : Int) ≤
              ((store.getD ms[j].mdRef default).parameters.length : Int) := by
            exact_mod_cast hple
          omega

theorem GetMethod_sound (store : List ManifestMethod) (c : HFSpecificContractMD)
    (name : String) (paramCount : Int) (m : HFSpecificMethodAndPrice)
    (hm : GetMethod store c name paramCount = some m) :
    m ∈ c.methods ∧ (store.getD m.mdRef default).name = name ∧
      (paramCount = -1 ∨
        ((store.getD m.mdRef default).parameters.length : Int) = paramCount) := by
  unfold GetMethod getMethodAt at hm
  split at hm
  · next hr =>
    split at hm
    · next hcond =>
      have hmeq := Option.some.inj hm
      subst hmeq
      refine ⟨?_, hcond.1, hcond.2⟩
      rw [getD_eq_getElem _ hr]
      exact List.getElem_mem hr
    · cases hm
  · cases hm

theorem GetMethod_complete (store : List ManifestMethod) (c : HFSpecificContractMD)
    (name : String) (paramCount : Int) (hs : HFSorted store c.methods)
    (m0 : HFSpecificMethodAndPrice) (hmem : m0 ∈ c.methods)
    (hname : (store.getD m0.mdRef default).name = name)
    (harity : paramCount = -1 ∨
      ((store.getD m0.mdRef default).parameters.length : Int) = paramCount) :
    ∃ m, GetMethod store c name paramCount = some m := by
  obtain ⟨hrefs, hpair⟩ := hs
  have hM := getMethodPred_mono store c.methods name paramCount hpair
  obtain ⟨t, ht, hmt⟩ := List.mem_iff_getElem.mp hmem
  have hneg1 : (-1 : Int) ≤ ((store.getD m0.mdRef default).parameters.length : Int) := by
    have := Int.natCast_nonneg ((store.getD m0.mdRef default).parameters.length)
    omega
  have hpt : getMethodPred store c.methods name paramCount t = true := by
    rw [getMethodPred_eq store c.methods name paramCount ht, hmt, hname]
    simp only [strLt_irrefl, beq_self_eq_true, Bool.true_and, Bool.false_or]
    rcases harity with h | h
    · subst h
      simp only [decide_eq_true_eq]
      exact hneg1
    · simp only [decide_eq_true_eq]
      omega
  have hrt : goSearch c.methods.length (getMethodPred store c.methods name paramCount) ≤ t := by
    by_contra hgt
    push_neg at hgt
    have hf := goSearch_below c.methods.length
      (getMethodPred store c.methods name paramCount) hM t hgt
    rw [hpt] at hf
    cases hf
  have hrn : goSearch c.methods.length (getMethodPred store c.methods name paramCount) <
      c.methods.length := lt_of_le_of_lt hrt ht
  have hpr := goSearch_hit c.methods.length
    (getMethodPred store c.methods name paramCount) hrn
  rw [getMethodPred_eq store c.methods name paramCount hrn] at hpr
  simp only [Bool.or_eq_true, Bool.and_eq_true, decide_eq_true_eq, beq_iff_eq] at hpr
  have hnr : (store.getD
      (c.methods[goSearch c.methods.length
        (getMethodPred store c.methods name paramCount)]).mdRef default).name = name := by
    rcases hpr with hpr | ⟨h, _⟩
    · exfalso
      rcases Nat.eq_or_lt_of_le hrt with heq | hlt2
      · subst heq
        rw [hmt, hname, strLt_irrefl] at hpr
        cases hpr
      · have hle := nameParamLe_cases
          ((List.pairwise_iff_getElem.mp hpair) _ t hrn ht hlt2)
        simp only [mdKey] at hle
        rcases hle with hle | ⟨hne, _⟩
        · rw [hmt, hname] at hle
          have hcon := strLt_trans hpr hle
          rw [strLt_irrefl] at hcon
          cases hcon
        · rw [hmt, hname] at hne
          rw [hne, strLt_irrefl] at hpr
          cases hpr
    · exact h
  have hparr : paramCount = -1 ∨
      (((store.getD
        (c.methods[goSearch c.methods.length
          (getMethodPred store c.methods name paramCount)]).mdRef
            default).parameters.length : Int) = paramCount) := by
    rcases harity with h | h
    · exact Or.inl h
    · right
      have hpcr : paramCount ≤ ((store.getD
          (c.methods[goSearch c.methods.length
            (getMethodPred store c.methods name paramCount)]).mdRef
              default).parameters.length : Int) := by
        rcases hpr with hpr | ⟨_, hp⟩
        · rw [hnr, strLt_irrefl] at hpr
          cases hpr
        · exact hp
      rcases Nat.eq_or_lt_of_le hrt with heq | hlt2
      · subst heq
        rw [hmt]
        exact h
      · have hle := nameParamLe_cases
          ((List.pairwise_iff_getElem.mp hpair) _ t hrn ht hlt2)
        simp only [mdKey] at hle
        rcases hle with hle | ⟨_, hple⟩
        · exfalso
          rw [hnr] at hle
          rw [hmt, hname] at hle
          rw [strLt_irrefl] at hle
          cases hle
        · rw [hmt] at hple
          have hc : ((store.getD
              (c.methods[goSearch c.methods.length
                (getMethodPred store c.methods name paramCount)]).mdRef
                  default).parameters.length : Int) ≤
              ((store.getD m0.mdRef default).parameters.length : Int) := by
            exact_mod_cast hple
          omega
  refine ⟨c.methods.getD
    (goSearch c.methods.length (getMethodPred store c.methods name paramCount)) default, ?_⟩
  unfold GetMethod getMethodAt
  rw [if_pos hrn, if_pos ?_]
  rw [getD_eq_getElem _ hrn]
  exact ⟨hnr, hparr⟩

theorem GetMethod_minimal (store : List ManifestMethod) (c : HFSpecificContractMD)
    (name : String) (hs : HFSorted store c.methods) (m : HFSpecificMethodAndPrice)
    (hm : GetMethod store c name (-1) = some m) (m' : HFSpecificMethodAndPrice)
    (hmem' : m' ∈ c.methods)
    (hname' : (store.getD m'.mdRef default).name = name) :
    (store.getD m.mdRef default).parameters.length ≤
      (store.getD m'.mdRef default).parameters.length := by
  obtain ⟨hrefs, hpair⟩ := hs
  have hM := getMethodPred_mono store c.methods name (-1) hpair
  unfold GetMethod getMethodAt at hm
  split at hm
  · next hr =>
    split at hm
    · next hcond =>
      have hmeq := Option.some.inj hm
      obtain ⟨t', ht', hmt'⟩ := List.mem_iff_getElem.mp hmem'
      have hrt : goSearch c.methods.length (getMethodPred store c.methods name (-1)) ≤ t' := by
        by_contra hgt
        push_neg at hgt
        have hf := goSearch_below c.methods.length
          (getMethodPred store c.methods name (-1)) hM t' hgt
        rw [getMethodPred_eq store c.methods name (-1) ht', hmt', hname'] at hf
        have hneg1 : ((-1 : Int) ≤
            ((store.getD m'.mdRef default).parameters.length : Int)) := by
          have := Int.natCast_nonneg ((store.getD m'.mdRef default).parameters.length)
          omega
        simp only [strLt_irrefl, beq_self_eq_true, Bool.true_and, Bool.false_or,
          decide_eq_true_eq] at hf
        exact absurd hneg1 (by simpa using hf)
      rw [getD_eq_getElem _ hr] at hmeq hcond
      rw [hmeq] at hcond
      rcases Nat.eq_or_lt_of_le hrt with heq | hlt2
      · subst heq
        have hmm : m = m' := by
          rw [← hmeq, ← hmt']
        rw [hmm]
      · have hle := nameParamLe_cases
          ((List.pairwise_iff_getElem.mp hpair) _ t' hr ht' hlt2)
        simp only [mdKey] at hle
        rw [hmeq, hmt'] at hle
        rcases hle with hle | ⟨_, hple⟩
        · exfalso
          rw [hcond.1, hname', strLt_irrefl] at hle
          cases hle
        · exact hple
    · cases hm
  · cases hm

/-! ## `GetFunction` binary-search correctness -/

theorem GetFunction_not_found (fs : List Function) (id : Nat)
    (habs : ∀ f ∈ fs, f.id ≠ id) : GetFunction fs id = none := by
  unfold GetFunction getFunctionAt
  split
  · next hcon =>
    exfalso
    obtain ⟨h1, h2⟩ := hcon
    rw [getD_eq_getElem fs h1] at h2
    exact habs _ (List.getElem_mem h1) h2
  · rfl

theorem GetFunction_found (fs : List Function) (id : Nat)
    (hsorted : fs.Pairwise (fun a b => a.id ≤ b.id))
    (f0 : Function) (hmem : f0 ∈ fs) (hid : f0.id = id) :
    ∃ f, GetFunction fs id = some f ∧ f ∈ fs ∧ f.id = id := by
  have hM : RangeMono fs.length (fun i => decide (id ≤ (fs.getD i default).id)) := by
    intro i j hij hj hfi
    have hi : i < fs.length := by omega
    have hfi2 : decide (id ≤ (fs.getD i default).id) = true := hfi
    show decide (id ≤ (fs.getD j default).id) = true
    rw [getD_eq_getElem fs hi] at hfi2
    rw [getD_eq_getElem fs hj]
    simp only [decide_eq_true_eq] at hfi2 ⊢
    rcases Nat.eq_or_lt_of_le hij with heq | hlt
    · subst heq
      exact hfi2
    · have := (List.pairwise_iff_getElem.mp hsorted) i j hi hj hlt
      omega
  obtain ⟨t, ht, hft⟩ := List.mem_iff_getElem.mp hmem
  have hpt : decide (id ≤ (fs.getD t default).id) = true := by
    rw [getD_eq_getElem fs ht, hft, hid]
    simp
  have hrt : goSearch fs.length (fun i => decide (id ≤ (fs.getD i default).id)) ≤ t := by
    by_contra hgt
    push_neg at hgt
    have hf2 : decide (id ≤ (fs.getD t default).id) = false :=
      goSearch_below fs.length (fun i => decide (id ≤ (fs.getD i default).id)) hM t hgt
    exact Bool.noConfusion (hpt ▸ hf2)
  have hrn : goSearch fs.length (fun i => decide (id ≤ (fs.getD i default).id)) <
      fs.length := lt_of_le_of_lt hrt ht
  have hpr : decide (id ≤ ((fs.getD
      (goSearch fs.length (fun i => decide (id ≤ (fs.getD i default).id)))
        default).id)) = true :=
    goSearch_hit fs.length (fun i => decide (id ≤ (fs.getD i default).id)) hrn
  simp only [decide_eq_true_eq] at hpr
  have hidr : (fs.getD
      (goSearch fs.length (fun i => decide (id ≤ (fs.getD i default).id))) default).id =
      id := by
    rw [getD_eq_getElem fs hrn] at hpr ⊢
    rcases Nat.eq_or_lt_of_le hrt with heq | hlt
    · subst heq
      rw [hft]
      exact hid
    · have := (List.pairwise_iff_getElem.mp hsorted) _ t hrn ht hlt
      rw [hft, hid] at this
      omega
  refine ⟨fs.getD
    (goSearch fs.length (fun i => decide (id ≤ (fs.getD i default).id))) default,
    ?_, ?_, hidr⟩
  · unfold GetFunction getFunctionAt
    rw [if_pos ⟨hrn, hidr⟩]
  · rw [getD_eq_getElem fs hrn]
    exact List.getElem_mem hrn

/-! ## Claim theorems -/

/-- Concrete contract exercising the hardfork filter: `m1` always active,
`m2` active from hardfork 1, `m3` active from hardfork 2. -/
def hfFilterContract : ContractMD :=
  { id := 1
    hash := "filter"
    name := "filter"
    methods :=
      [ { fn := 1, mdRef := 0, cpuFee := 0, storageFee := 0, syscallOffset := 0,
          requiredFlags := 0, activeFrom := none },
        { fn := 2, mdRef := 1, cpuFee := 0, storageFee := 0, syscallOffset := 0,
          requiredFlags := 0, activeFrom := some 1 },
        { fn := 3, mdRef := 2, cpuFee := 0, storageFee := 0, syscallOffset := 0,
          requiredFlags := 0, activeFrom := some 2 } ]
    events := []
    activeHFs := [1, 2]
    store :=
      [ { name := "m1", parameters := [], returnType := 0, offset := 0, safe := false },
        { name := "m2", parameters := [], returnType := 0, offset := 0, safe := false },
        { name := "m3", parameters := [], returnType := 0, offset := 0, safe := false } ] }

/-- Claim C1: evaluation of the hardfork filter at the S2 scenario (three
methods with activation hardforks nil, 1 and 2, with 1 older than 2).  The
source keeps a method iff `ActiveFrom == nil || (hf != nil && ActiveFrom.Cmp(hf) >= 0)`,
i.e. iff the activation hardfork is *at least* the requested one, so
materialising at hardfork 1 yields all of m1, m2, m3 and materialising at
hardfork 2 yields m1, m3 — while the claim demands m1, m2 and m1, m2, m3
respectively.  Materialising with no hardfork yields m1 only, as claimed. -/
theorem buildHFSpecificMD_filter_at_failing_input :
    ((buildHFSpecificMD hfFilterContract (some 1)).1.manifest.abiMethods.map
      (fun md => md.name)) = ["m1", "m2", "m3"] ∧
    ((buildHFSpecificMD hfFilterContract (some 2)).1.manifest.abiMethods.map
      (fun md => md.name)) = ["m1", "m3"] ∧
    ((buildHFSpecificMD hfFilterContract none).1.manifest.abiMethods.map
      (fun md => md.name)) = ["m1"] := by
  decide

/-- Concrete contract with a single method `m2` active from hardfork 1. -/
def hfSubsetContract : ContractMD :=
  { id := 2
    hash := "subset"
    name := "subset"
    methods :=
      [ { fn := 1, mdRef := 0, cpuFee := 0, storageFee := 0, syscallOffset := 0,
          requiredFlags := 0, activeFrom := some 1 } ]
    events := []
    activeHFs := [1]
    store :=
      [ { name := "m2", parameters := [], returnType := 0, offset := 0, safe := false } ] }

/-- Claim C5: the method set of `materialise` is not monotone in the hardfork
key.  A method with activation hardfork 1 is kept when materialising at
hardfork 1 but dropped when materialising at the later hardfork 2, so the
claimed subset relation `materialise(H1) ⊆ materialise(H2)` for `H1 ≤ H2`
fails; the source's filter keeps exactly the methods whose activation
hardfork is at least the key, making the inclusion hold in the opposite
direction. -/
theorem buildHFSpecificMD_subset_violated :
    ("m2" ∈ (buildHFSpecificMD hfSubsetContract (some 1)).1.manifest.abiMethods.map
      (fun md => md.name)) ∧
    ¬ ("m2" ∈ (buildHFSpecificMD hfSubsetContract (some 2)).1.manifest.abiMethods.map
      (fun md => md.name)) := by
  decide

/-- Claim C9: `buildHFSpecificMD` never mutates the original method
declarations: its entire effect on the `manifest.Method` heap is to append
the freshly allocated clones (whose offsets it sets), so every cell of
`c.store` — the declarations attached by registration — is unchanged. -/
theorem buildHFSpecificMD_no_mutation (c : ContractMD) (hf : Option Nat) :
    ∃ clones, (buildHFSpecificMD c hf).2 = c.store ++ clones := by
  obtain ⟨ext, hext⟩ := build_store_extend hf c.methods
    { script := [], abiMethods := [], methods := [], store := c.store }
  exact ⟨ext, hext⟩

/-- Claim C2: for every method of a materialised descriptor the synthetic
script carries, at `syscall_offset − 2` (the clone's recorded offset), the
two-byte `PUSHINT8 0`, then at `syscall_offset` the five-byte
`SYSCALL System.Contract.CallNative` followed by `RET`; each method occupies
exactly 8 bytes of the stub. -/
theorem buildHFSpecificMD_stub_layout (c : ContractMD) (hf : Option Nat)
    (m : HFSpecificMethodAndPrice) (hm : m ∈ (buildHFSpecificMD c hf).1.methods) :
    2 ≤ m.syscallOffset ∧
    (((buildHFSpecificMD c hf).1.nef.script.drop (m.syscallOffset - 2)).take 8 =
      pushInt0Bytes ++ syscallCallNativeBytes ++ [opRET]) ∧
    (((buildHFSpecificMD c hf).1.nef.script.drop m.syscallOffset).take 6 =
      syscallCallNativeBytes ++ [opRET]) ∧
    (((buildHFSpecificMD c hf).2.getD m.mdRef default).offset = m.syscallOffset - 2) ∧
    (buildHFSpecificMD c hf).1.nef.script.length =
      8 * (buildHFSpecificMD c hf).1.methods.length := by
  have hinit : BuildInv ⟨[], [], [], c.store⟩ := by
    refine ⟨rfl, ?_⟩
    intro m hm
    cases hm
  have hinv := build_inv hf c.methods _ hinit
  obtain ⟨hlen, hms⟩ := hinv
  obtain ⟨h2, h6, hdrop, href, hoff⟩ := hms m hm
  have hstub8 : (((buildHFSpecificMD c hf).1.nef.script.drop (m.syscallOffset - 2)).take 8) =
      pushInt0Bytes ++ syscallCallNativeBytes ++ [opRET] := hdrop
  refine ⟨h2, hstub8, ?_, hoff, hlen⟩
  have hchain :
      ((((buildHFSpecificMD c hf).1.nef.script.drop (m.syscallOffset - 2)).take 8).drop 2) =
        (((buildHFSpecificMD c hf).1.nef.script.drop (m.syscallOffset - 2)).drop 2).take 6 :=
    List.drop_take 8 2 _
  rw [hstub8] at hchain
  have hdd : (((buildHFSpecificMD c hf).1.nef.script.drop (m.syscallOffset - 2)).drop 2) =
      (buildHFSpecificMD c hf).1.nef.script.drop m.syscallOffset := by
    rw [List.drop_drop]
    congr 1
    omega
  rw [hdd] at hchain
  rw [← hchain]
  rfl

/-- Concrete contract for the stub-layout witness: a single always-active
method `foo(a, b)`. -/
def stubContract : ContractMD :=
  { id := 3
    hash := "stub"
    name := "stub"
    methods :=
      [ { fn := 7, mdRef := 0, cpuFee := 5, storageFee := 6, syscallOffset := 0,
          requiredFlags := 3, activeFrom := none } ]
    events := []
    activeHFs := []
    store :=
      [ { name := "foo"
          parameters := [{ name := "a", typ := 0 }, { name := "b", typ := 0 }]
          returnType := 0, offset := 0, safe := false } ] }

/-- The hardfork-specific descriptor of `stubContract`'s method as the
materialisation computes it. -/
def stubMethod : HFSpecificMethodAndPrice :=
  { fn := 7, mdRef := 1, cpuFee := 5, storageFee := 6, syscallOffset := 2,
    requiredFlags := 3 }

/-- Witness for the stub-layout theorem at a concrete contract. -/
theorem buildHFSpecificMD_stub_layout_witness :
    (stubMethod ∈ (buildHFSpecificMD stubContract none).1.methods) ∧
    (2 ≤ stubMethod.syscallOffset ∧
      (((buildHFSpecificMD stubContract none).1.nef.script.drop
        (stubMethod.syscallOffset - 2)).take 8 =
        pushInt0Bytes ++ syscallCallNativeBytes ++ [opRET]) ∧
      (((buildHFSpecificMD stubContract none).1.nef.script.drop
        stubMethod.syscallOffset).take 6 = syscallCallNativeBytes ++ [opRET]) ∧
      (((buildHFSpecificMD stubContract none).2.getD stubMethod.mdRef default).offset =
        stubMethod.syscallOffset - 2) ∧
      (buildHFSpecificMD stubContract none).1.nef.script.length =
        8 * (buildHFSpecificMD stubContract none).1.methods.length) :=
  ⟨by decide, buildHFSpecificMD_stub_layout stubContract none stubMethod (by decide)⟩

/-- Claim C3 (amended): after any sequence of `AddMethod` registrations
starting from a fresh contract, the method table is sorted by ascending name
and, among methods of equal name, *ascending* parameter count (so registering
copy(a,b), copy(a,b,c), copy(a) yields copy(a), copy(a,b), copy(a,b,c)). -/
theorem AddMethod_sorted_invariant (nm : String) (cid : Int)
    (regs : List (MethodAndPrice × ManifestMethod)) :
    ContractSorted (regs.foldl (fun c p => AddMethod c p.1 p.2) (NewContractMD nm cid)) := by
  have hstart : ContractSorted (NewContractMD nm cid) := by
    constructor
    · intro m hm
      cases hm
    · exact List.Pairwise.nil
  have hfold : ∀ (rs : List (MethodAndPrice × ManifestMethod)) (c : ContractMD),
      ContractSorted c →
      ContractSorted (rs.foldl (fun c p => AddMethod c p.1 p.2) c) := by
    intro rs
    induction rs with
    | nil => intro c h; exact h
    | cons p rest ih =>
        intro c h
        exact ih _ (AddMethod_preserves_sorted c p.1 p.2 h)
  exact hfold regs _ hstart

/-- A generic method declaration used for overload registration examples. -/
def copyDecl (k : Nat) : MethodAndPrice :=
  { fn := k, mdRef := 0, cpuFee := 0, storageFee := 0, syscallOffset := 0,
    requiredFlags := 0, activeFrom := none }

/-- A `copy` ABI descriptor with the given parameter names. -/
def copyDesc (ps : List String) : ManifestMethod :=
  { name := "copy", parameters := ps.map (fun s => { name := s, typ := 0 }),
    returnType := 0, offset := 0, safe := false }

/-- The S3 registration sequence: copy(a,b), then copy(a,b,c), then copy(a). -/
def overloadContract : ContractMD :=
  AddMethod
    (AddMethod
      (AddMethod (NewContractMD "overload" 4) (copyDecl 1) (copyDesc ["a", "b"]))
      (copyDecl 2) (copyDesc ["a", "b", "c"]))
    (copyDecl 3) (copyDesc ["a"])

/-- Claim C3, counterexample: registering copy(a,b), copy(a,b,c), copy(a)
leaves the table in ascending arity order copy(a), copy(a,b), copy(a,b,c) —
parameter counts [1, 2, 3] — not the claimed descending order
copy(a,b,c), copy(a,b), copy(a) with counts [3, 2, 1]. -/
theorem AddMethod_order_counterexample :
    (overloadContract.methods.map
      (fun m => (overloadContract.store.getD m.mdRef default).parameters.length)) =
      [1, 2, 3] ∧
    ¬ ((overloadContract.methods.map
      (fun m => (overloadContract.store.getD m.mdRef default).parameters.length)) =
      [3, 2, 1]) := by
  decide

/-- Claim C4 (amended): on a method table sorted by the actual rule
(ascending name, then ascending parameter count) and with valid store
references, `GetMethod` returns a method iff one with the requested name and
arity exists (−1 matches any arity); any returned method satisfies the
request; and with `paramCount = −1` the result is the first match in table
order, i.e. the *smallest*-arity overload of that name. -/
theorem GetMethod_spec (store : List ManifestMethod) (c : HFSpecificContractMD)
    (name : String) (paramCount : Int) (hs : HFSorted store c.methods) :
    (∀ m, GetMethod store c name paramCount = some m →
      m ∈ c.methods ∧ (store.getD m.mdRef default).name = name ∧
        (paramCount = -1 ∨
          ((store.getD m.mdRef default).parameters.length : Int) = paramCount)) ∧
    ((∃ m0 ∈ c.methods, (store.getD m0.mdRef default).name = name ∧
        (paramCount = -1 ∨
          ((store.getD m0.mdRef default).parameters.length : Int) = paramCount)) →
      ∃ m, GetMethod store c name paramCount = some m) ∧
    (paramCount = -1 → ∀ m, GetMethod store c name paramCount = some m →
      ∀ m2 ∈ c.methods, (store.getD m2.mdRef default).name = name →
        (store.getD m.mdRef default).parameters.length ≤
          (store.getD m2.mdRef default).parameters.length) := by
  refine ⟨?_, ?_, ?_⟩
  · intro m hm
    exact GetMethod_sound store c name paramCount m hm
  · rintro ⟨m0, hmem, hname, harity⟩
    exact GetMethod_complete store c name paramCount hs m0 hmem hname harity
  · rintro rfl m hm m2 hmem2 hname2
    exact GetMethod_minimal store c name hs m hm m2 hmem2 hname2

/-- A store for the `GetMethod` witness: `copy(a)` and `copy(a,b)` clones. -/
def lookupStore : List ManifestMethod := [copyDesc ["a"], copyDesc ["a", "b"]]

/-- A hardfork-specific descriptor whose table is sorted by the actual rule. -/
def lookupContract : HFSpecificContractMD :=
  { id := 5
    hash := "lookup"
    nef := { magic := nefMagic, compiler := "neo-core-v3.0", tokens := [], script := [] }
    manifest := { name := "lookup", abiMethods := [], abiEvents := [] }
    methods :=
      [ { fn := 1, mdRef := 0, cpuFee := 0, storageFee := 0, syscallOffset := 2,
          requiredFlags := 0 },
        { fn := 2, mdRef := 1, cpuFee := 0, storageFee := 0, syscallOffset := 10,
          requiredFlags := 0 } ]
    events := [] }

/-- Witness for the `GetMethod` specification at a concrete sorted table. -/
theorem GetMethod_spec_witness :
    HFSorted lookupStore lookupContract.methods ∧
    (∃ m, GetMethod lookupStore lookupContract "copy" (-1) = some m) :=
  ⟨⟨by decide, by decide⟩,
    (GetMethod_spec lookupStore lookupContract "copy" (-1) ⟨by decide, by decide⟩).2.1
      ⟨{ fn := 1, mdRef := 0, cpuFee := 0, storageFee := 0, syscallOffset := 2,
         requiredFlags := 0 }, by decide, by decide, Or.inl rfl⟩⟩

/-- Claim C4, counterexample: on the materialisation of the S3 registration
sequence (whose table is in ascending arity order), `GetMethod("copy", −1)`
returns the 1-parameter overload, not the claimed largest-arity (3-parameter)
one. -/
theorem GetMethod_largest_arity_counterexample :
    (Option.map
      (fun m => ((buildHFSpecificMD overloadContract none).2.getD m.mdRef
        default).parameters.length)
      (GetMethod (buildHFSpecificMD overloadContract none).2
        (buildHFSpecificMD overloadContract none).1 "copy" (-1))) = some 1 ∧
    ¬ ((Option.map
      (fun m => ((buildHFSpecificMD overloadContract none).2.getD m.mdRef
        default).parameters.length)
      (GetMethod (buildHFSpecificMD overloadContract none).2
        (buildHFSpecificMD overloadContract none).1 "copy" (-1))) = some 3) := by
  decide

/-- Claim C6: dispatch order of `SyscallHandler` — absence before permission
before gas before execution.  An unregistered id fails with SyscallNotFound
and neither charges gas nor runs a handler; insufficient permissions fail
with MissingCallFlags (reporting both bitsets) without charging gas or
running the handler; otherwise `f.price * baseExecFee` is charged first, an
exhausted budget fails with InsufficientGas without running the handler, and
a sufficient budget runs the handler exactly once against the already-charged
state and propagates its result verbatim. -/
theorem SyscallHandler_spec (handler : Nat → SyscallState → Option Nat × SyscallState)
    (ic : SyscallState) (id : Nat)
    (hsorted : ic.functions.Pairwise (fun a b => a.id ≤ b.id)) :
    ((∀ f ∈ ic.functions, f.id ≠ id) →
      SyscallHandler handler ic id = (some .syscallNotFound, ic, 0)) ∧
    (∀ f0 ∈ ic.functions, f0.id = id →
      ∃ f, GetFunction ic.functions id = some f ∧ f ∈ ic.functions ∧ f.id = id ∧
        (callflagHas ic.callFlags f.requiredFlags = false →
          SyscallHandler handler ic id =
            (some (.missingCallFlags ic.callFlags f.requiredFlags), ic, 0)) ∧
        (callflagHas ic.callFlags f.requiredFlags = true →
          ((AddGas ic.gas (f.price * ic.baseExecFee)).1 = false →
            SyscallHandler handler ic id =
              (some .insufficientGas,
                { ic with gas := (AddGas ic.gas (f.price * ic.baseExecFee)).2 }, 0)) ∧
          ((AddGas ic.gas (f.price * ic.baseExecFee)).1 = true →
            SyscallHandler handler ic id =
              ((handler f.fn
                  { ic with gas := (AddGas ic.gas (f.price * ic.baseExecFee)).2 }).1.map
                SyscallError.handlerError,
                (handler f.fn
                  { ic with gas := (AddGas ic.gas (f.price * ic.baseExecFee)).2 }).2,
                1)))) := by
  constructor
  · intro habs
    unfold SyscallHandler
    rw [GetFunction_not_found ic.functions id habs]
  · intro f0 hmem hid
    obtain ⟨f, hf, hfmem, hfid⟩ := GetFunction_found ic.functions id hsorted f0 hmem hid
    refine ⟨f, hf, hfmem, hfid, ?_, ?_⟩
    · intro hflag
      unfold SyscallHandler
      rw [hf]
      simp [hflag]
    · intro hflag
      constructor
      · intro hgas
        unfold SyscallHandler
        rw [hf]
        simp [hflag, hgas]
      · intro hgas
        unfold SyscallHandler
        rw [hf]
        simp [hflag, hgas]

/-- The function table for the dispatch witness: one syscall with id 42,
price 100, requiring `WriteStates`. -/
def dispatchFunctions : List Function :=
  [{ id := 42, name := "test.call", fn := 9, paramCount := 1, price := 100,
     requiredFlags := callflagWriteStates }]

/-- A handler interpretation that succeeds without touching the state. -/
def dispatchHandler : Nat → SyscallState → Option Nat × SyscallState :=
  fun _ s => (none, s)

/-- A dispatch state with `WriteStates` granted and a generous gas budget. -/
def dispatchState : SyscallState :=
  { functions := dispatchFunctions, baseExecFee := 30,
    callFlags := callflagWriteStates, gas := { gasConsumed := 0, gasLimit := 100000 } }

/-- Witness for the dispatch specification at a concrete state. -/
theorem SyscallHandler_spec_witness :
    dispatchState.functions.Pairwise (fun a b => a.id ≤ b.id) ∧
    ((∀ f ∈ dispatchState.functions, f.id ≠ 7) →
      SyscallHandler dispatchHandler dispatchState 7 =
        (some .syscallNotFound, dispatchState, 0)) :=
  ⟨by decide,
    (SyscallHandler_spec dispatchHandler dispatchState 7 (by decide)).1⟩

/-- Claim C7: with an attached persisting block of index `k` (a positive
`uint32` value), `BlockHeight` is `k − 1` and `GetBlock` hides every stored
block above `k − 1` behind `ErrKeyNotFound` while returning those at or below
`k − 1`; with no block attached, `BlockHeight` and `GetBlock` forward to the
ledger (the height filter is vacuous on a ledger whose stored blocks are at
or below its tip). -/
theorem BlockHeight_GetBlock_view (ic : InteropCtx) (k : Nat) :
    (∀ b, ic.block = some b → b.index = k → 1 ≤ k → k < u32size →
      BlockHeight ic = k - 1 ∧
      (∀ h blk, ic.chain.getBlock h = some blk →
        (blk.index > k - 1 → GetBlock ic h = .error .keyNotFound) ∧
        (blk.index ≤ k - 1 → GetBlock ic h = .ok blk))) ∧
    (ic.block = none →
      BlockHeight ic = ic.chain.blockHeight ∧
      (∀ h, (∀ blk, ic.chain.getBlock h = some blk → blk.index ≤ ic.chain.blockHeight) →
        GetBlock ic h =
          match ic.chain.getBlock h with
          | none => .error .ledger
          | some blk => .ok blk)) := by
  constructor
  · intro b hb hk h1 h2
    have hbh : BlockHeight ic = k - 1 := by
      simp only [BlockHeight, hb]
      rw [hk]
      unfold u32size at h2 ⊢
      omega
    refine ⟨hbh, ?_⟩
    intro h blk hblk
    constructor
    · intro hgt
      simp only [GetBlock, hblk, hbh]
      rw [if_pos hgt]
    · intro hle
      simp only [GetBlock, hblk, hbh]
      rw [if_neg (by omega)]
  · intro hnone
    have hbh : BlockHeight ic = ic.chain.blockHeight := by
      simp only [BlockHeight, hnone]
    refine ⟨hbh, ?_⟩
    intro h hcons
    cases hg : ic.chain.getBlock h
    · simp only [GetBlock, hg]
    · next blk =>
      simp only [GetBlock, hg, hbh]
      rw [if_neg]
      have := hcons blk hg
      omega

/-- Stored block 99 for the ledger-view witness. -/
def storedBlock99 : Block := { index := 99, hash := 99, nonce := 0 }

/-- Persisting block 100 for the ledger-view witness. -/
def persistingBlock100 : Block := { index := 100, hash := 100, nonce := 0 }

/-- A ledger storing blocks 99 and 100 with tip height 99. -/
def viewChain : Ledger :=
  { blockHeight := 99
    currentBlockHash := 99
    getBlock := fun h =>
      if h = 99 then some storedBlock99
      else if h = 100 then some persistingBlock100
      else none
    getHeaderHash := fun _ => 0 }

/-- Context persisting block 100 over `viewChain`. -/
def viewCtx : InteropCtx :=
  { chain := viewChain, block := some persistingBlock100, hardforks := [(0, 100)] }

/-- Witness for the persisting-block ledger view at block index 100: height
is 99, the persisting block itself is hidden, block 99 is returned. -/
theorem BlockHeight_GetBlock_view_witness :
    (viewCtx.block = some persistingBlock100 ∧ persistingBlock100.index = 100) ∧
    (BlockHeight viewCtx = 99 ∧
      GetBlock viewCtx 100 = .error .keyNotFound ∧
      GetBlock viewCtx 99 = .ok storedBlock99) :=
  ⟨⟨rfl, rfl⟩, by
    obtain ⟨hbh, hgb⟩ := (BlockHeight_GetBlock_view viewCtx 100).1
      persistingBlock100 rfl rfl (by decide) (by decide)
    refine ⟨hbh, ?_, ?_⟩
    · exact (hgb 100 persistingBlock100 (by decide)).1 (by decide)
    · exact (hgb 99 storedBlock99 (by decide)).2 (by decide)⟩

/-- Claim C8 (amended): `IsHardforkEnabled` is true iff the activation height
is known and `BlockHeight() + 1` (in `uint32` arithmetic) reaches it.
`IsHardforkActivation` returns false without touching the block when the
height is unknown, and compares the attached block's index with the height
when one is attached; but when the height is known and *no* block is
attached, the source dereferences the nil block and faults rather than
returning false. -/
theorem hardfork_checks (ic : InteropCtx) (hf : Nat) :
    (IsHardforkEnabled ic hf = true ↔
      ∃ height, hardforkLookup ic.hardforks hf = some height ∧
        (BlockHeight ic + 1) % u32size ≥ height) ∧
    (hardforkLookup ic.hardforks hf = none → IsHardforkActivation ic hf = some false) ∧
    (∀ height b, hardforkLookup ic.hardforks hf = some height → ic.block = some b →
      IsHardforkActivation ic hf = some (b.index == height)) ∧
    (∀ height, hardforkLookup ic.hardforks hf = some height → ic.block = none →
      IsHardforkActivation ic hf = none) := by
  refine ⟨?_, ?_, ?_, ?_⟩
  · unfold IsHardforkEnabled
    cases hl : hardforkLookup ic.hardforks hf
    · simp
    · next height =>
      simp only [decide_eq_true_eq]
      constructor
      · intro h
        exact ⟨height, rfl, h⟩
      · rintro ⟨height2, hh, h⟩
        have h3 : height = height2 := by
          injection hh
        rw [h3]
        exact h
  · intro hl
    unfold IsHardforkActivation
    rw [hl]
  · intro height b hl hb
    unfold IsHardforkActivation
    rw [hl, hb]
  · intro height hl hnone
    unfold IsHardforkActivation
    rw [hl, hnone]

/-- Context with hardfork 0 activating at height 100, persisting block 100. -/
def activationCtx : InteropCtx :=
  { chain := viewChain, block := some persistingBlock100, hardforks := [(0, 100)] }

/-- Witness for the hardfork checks: at persisting block 100 with activation
height 100, the hardfork is enabled (99 + 1 ≥ 100) and the activation test
fires. -/
theorem hardfork_checks_witness :
    (hardforkLookup activationCtx.hardforks 0 = some 100 ∧
      activationCtx.block = some persistingBlock100) ∧
    (IsHardforkEnabled activationCtx 0 = true ∧
      IsHardforkActivation activationCtx 0 = some true) :=
  ⟨⟨rfl, rfl⟩, by
    constructor
    · exact ((hardfork_checks activationCtx 0).1).mpr ⟨100, rfl, by decide⟩
    · exact ((hardfork_checks activationCtx 0).2.2.1) 100 persistingBlock100 rfl rfl⟩

/-- Context with a known activation height but no attached block. -/
def noBlockCtx : InteropCtx :=
  { chain := viewChain, block := none, hardforks := [(0, 10)] }

/-- Claim C8, counterexample: with no block attached and the activation
height known, `IsHardforkActivation` dereferences the absent persisting block
(modelled as `none`, a nil-pointer fault in the Go source) instead of
returning false as the claim states. -/
theorem IsHardforkActivation_nil_counterexample :
    IsHardforkActivation noBlockCtx 0 = none ∧
    ¬ (IsHardforkActivation noBlockCtx 0 = some false) := by
  decide

/-- Claim C10: with an attached persisting block of index 0, `BlockHeight`
wraps around `uint32` arithmetic to 4294967295; consequently the height
filter of `GetBlock` can hide no stored block — every `uint32`-indexed block
the ledger returns is passed through, as if the height were maximal. -/
theorem BlockHeight_zero_wrap (ic : InteropCtx) (b : Block)
    (hb : ic.block = some b) (h0 : b.index = 0) :
    BlockHeight ic = 4294967295 ∧
    (∀ h blk, ic.chain.getBlock h = some blk → blk.index < u32size →
      GetBlock ic h = .ok blk) := by
  have hbh : BlockHeight ic = 4294967295 := by
    simp only [BlockHeight, hb]
    rw [h0]
    decide
  refine ⟨hbh, ?_⟩
  intro h blk hblk hidx
  simp only [GetBlock, hblk, hbh]
  rw [if_neg]
  unfold u32size at hidx
  omega

/-- Block of index 0 (genesis) for the wraparound witness. -/
def genesisBlock : Block := { index := 0, hash := 0, nonce := 0 }

/-- Context persisting the genesis block over `viewChain`. -/
def genesisCtx : InteropCtx :=
  { chain := viewChain, block := some genesisBlock, hardforks := [] }

/-- Witness for the wraparound behaviour: persisting block 0 yields height
4294967295 and stored block 99 remains visible. -/
theorem BlockHeight_zero_wrap_witness :
    (genesisCtx.block = some genesisBlock ∧ genesisBlock.index = 0) ∧
    (BlockHeight genesisCtx = 4294967295 ∧
      GetBlock genesisCtx 99 = .ok storedBlock99) :=
  ⟨⟨rfl, rfl⟩, by
    obtain ⟨hbh, hgb⟩ := BlockHeight_zero_wrap genesisCtx genesisBlock rfl rfl
    exact ⟨hbh, hgb 99 storedBlock99 (by decide) (by decide)⟩⟩
